import Mathlib

/-!
Verification of the pdfrag retrieval core against its specification.

The Python sources are shallowly embedded:
* floats that only ever hold decimal literals, similarity scores and box
  coordinates are modelled as rationals (`ℚ`);
* Python values that may be "a list of numbers or anything else" (bounding
  boxes, list entries) are modelled by the small inductive types `PyVal` and
  `PyBox`; an operation that raises inside a `try: ... except: return False`
  block is modelled by the `false`/`none` branch of the corresponding match;
* the SQL of `SearchService.search` is modelled relationally: a join is a
  filtered product of the row lists;
* mutable single-pass loops become folds over an explicit state record.
-/

namespace PdfRag

/-- Python `abs` on a rational, written with `if` so that it evaluates inside
the kernel. -/
def pyAbs (q : ℚ) : ℚ := if q < 0 then -q else q

/-- Python `min` on two rationals (returns the first argument on ties). -/
def pyMin (a b : ℚ) : ℚ := if a ≤ b then a else b

lemma pyMin_comm (a b : ℚ) : pyMin a b = pyMin b a := by
  unfold pyMin
  rcases lt_trichotomy a b with h | h | h
  · rw [if_pos h.le, if_neg (not_le.mpr h)]
  · rw [h]
  · rw [if_neg (not_le.mpr h), if_pos h.le]

/-! ## Python-value model for bounding boxes

A bounding-box argument in the source is an arbitrary Python value.  The code
only distinguishes: is it a list/tuple, how long is it, and is a given entry
numeric (usable by `float(...)` and by arithmetic/comparisons).  `PyVal.num q`
is a numeric entry with value `q`; `PyVal.nonnum` is any entry on which
`float`/arithmetic raises.  `PyBox.notList` is any non-list value (`None`,
a string, a missing key, ...). -/

inductive PyVal where
  | num (q : ℚ)
  | nonnum
deriving DecidableEq

/-- `float(v)` of an entry: its value, or `none` when the conversion raises. -/
def PyVal.toFloat : PyVal → Option ℚ
  | .num q => some q
  | .nonnum => none

inductive PyBox where
  | box (entries : List PyVal)
  | notList
deriving DecidableEq

namespace EmbeddingService

/-- The coordinates `bbox[0] .. bbox[3]` of `EmbeddingService._is_nearby`'s
argument, when they exist and are numeric.  The method has no arity guard: it
indexes 0..3 directly, and an `IndexError`/`TypeError` (short list, non-list,
non-numeric entry) is swallowed by its `except` clause, which returns `False`.
Returning `True` requires all eight coordinates of the two boxes, both in the
overlap test and in the centre-distance computation, so any such failure is
equivalent to "coordinates unavailable". -/
def coords4 : PyBox → Option (ℚ × ℚ × ℚ × ℚ)
  | PyBox.box (PyVal.num x0 :: PyVal.num y0 :: PyVal.num x1 :: PyVal.num y1 :: _) =>
      some (x0, y0, x1, y1)
  | _ => none

/-- `EmbeddingService._is_nearby(bbox1, bbox2, threshold=200)` (Policy A,
src/app/services/embedding_service.py lines 158-198): boxes are near when the
horizontal and vertical intervals both overlap strictly, or else when the
Euclidean distance between the two centres is below `threshold`.  The source
compares `sqrt(d2) < threshold`; over `ℚ` this is encoded square-free as
`0 ≤ threshold ∧ d2 < threshold ^ 2`, which agrees with it for every
threshold. -/
def is_nearby (bbox1 bbox2 : PyBox) (threshold : ℚ) : Bool :=
  match coords4 bbox1 with
  | none => false
  | some (ax0, ay0, ax1, ay1) =>
    match coords4 bbox2 with
    | none => false
    | some (bx0, by0, bx1, by1) =>
      if ax0 < bx1 ∧ ax1 > bx0 ∧ ay0 < by1 ∧ ay1 > by0 then
        true
      else
        decide (0 ≤ threshold ∧
          ((ax0 + ax1) / 2 - (bx0 + bx1) / 2) ^ 2 +
            ((ay0 + ay1) / 2 - (by0 + by1) / 2) ^ 2 < threshold ^ 2)

end EmbeddingService

namespace VectorService

/-- The pair `(bbox[1], bbox[3])` used by `VectorService._is_nearby`, when the
value is a list/tuple of length at least 4 whose entries 1 and 3 are numeric.
The method guards `isinstance(..., (list, tuple))` and `len(...) < 4`
explicitly, then reads only indices 3 and 1 of each box; a failing `float()`
conversion is caught and yields `False`. -/
def vcoords : PyBox → Option (ℚ × ℚ)
  | PyBox.box l =>
    if l.length < 4 then none
    else
      match (l.getD 1 PyVal.nonnum).toFloat, (l.getD 3 PyVal.nonnum).toFloat with
      | some a1, some a3 => some (a1, a3)
      | _, _ => none
  | PyBox.notList => none

/-- `VectorService._is_nearby(bbox1, bbox2, threshold=100)` (Policy B,
src/app/services/vector_service.py lines 121-142): near when the minimum of
`|bbox1[3] - bbox2[1]|` and `|bbox2[3] - bbox1[1]|` is below `threshold`;
`False` for non-lists, short lists, or non-numeric entries at indices 1/3. -/
def is_nearby (bbox1 bbox2 : PyBox) (threshold : ℚ) : Bool :=
  match vcoords bbox1 with
  | none => false
  | some (a1, a3) =>
    match vcoords bbox2 with
    | none => false
    | some (b1, b3) => decide (pyMin (pyAbs (a3 - b1)) (pyAbs (b3 - a1)) < threshold)

end VectorService

lemma es_overlap_swap {ax0 ay0 ax1 ay1 bx0 by0 bx1 by1 : ℚ}
    (h : ax0 < bx1 ∧ ax1 > bx0 ∧ ay0 < by1 ∧ ay1 > by0) :
    bx0 < ax1 ∧ bx1 > ax0 ∧ by0 < ay1 ∧ by1 > ay0 :=
  ⟨h.2.1, h.1, h.2.2.2, h.2.2.1⟩

lemma es_dist_swap (ax0 ay0 ax1 ay1 bx0 by0 bx1 by1 t : ℚ) :
    (0 ≤ t ∧
      ((ax0 + ax1) / 2 - (bx0 + bx1) / 2) ^ 2 +
        ((ay0 + ay1) / 2 - (by0 + by1) / 2) ^ 2 < t ^ 2) ↔
    (0 ≤ t ∧
      ((bx0 + bx1) / 2 - (ax0 + ax1) / 2) ^ 2 +
        ((by0 + by1) / 2 - (ay0 + ay1) / 2) ^ 2 < t ^ 2) := by
  have hp : ((ax0 + ax1) / 2 - (bx0 + bx1) / 2) ^ 2 +
        ((ay0 + ay1) / 2 - (by0 + by1) / 2) ^ 2 =
      ((bx0 + bx1) / 2 - (ax0 + ax1) / 2) ^ 2 +
        ((by0 + by1) / 2 - (ay0 + ay1) / 2) ^ 2 := by ring
  rw [hp]

/-- Absolute values in Policy B's vertical-gap formula swap places when the
boxes swap, so only commutativity of the (Python) minimum is needed. -/
lemma vs_gap_swap (a1 a3 b1 b3 : ℚ) :
    pyMin (pyAbs (a3 - b1)) (pyAbs (b3 - a1)) =
      pyMin (pyAbs (b3 - a1)) (pyAbs (a3 - b1)) :=
  pyMin_comm _ _

/-- C6: both proximity predicates are symmetric: for every pair of (possibly
malformed) boxes `a`, `b` and every threshold, `near(a, b) = near(b, a)` under
Policy A (`EmbeddingService._is_nearby`) and under Policy B
(`VectorService._is_nearby`). -/
theorem C6_proximity_symmetric :
    ∀ (a b : PyBox) (t : ℚ),
      EmbeddingService.is_nearby a b t = EmbeddingService.is_nearby b a t ∧
      VectorService.is_nearby a b t = VectorService.is_nearby b a t := by
  intro a b t
  constructor
  · rcases ha : EmbeddingService.coords4 a with _ | ⟨ax0, ay0, ax1, ay1⟩
    · rcases hb : EmbeddingService.coords4 b with _ | ⟨bx0, by0, bx1, by1⟩ <;>
        simp [EmbeddingService.is_nearby, ha, hb]
    · rcases hb : EmbeddingService.coords4 b with _ | ⟨bx0, by0, bx1, by1⟩
      · simp [EmbeddingService.is_nearby, ha, hb]
      · simp only [EmbeddingService.is_nearby, ha, hb]
        by_cases hov : ax0 < bx1 ∧ ax1 > bx0 ∧ ay0 < by1 ∧ ay1 > by0
        · rw [if_pos hov, if_pos (es_overlap_swap hov)]
        · have hov2 : ¬(bx0 < ax1 ∧ bx1 > ax0 ∧ by0 < ay1 ∧ by1 > ay0) :=
            fun h2 => hov (es_overlap_swap h2)
          rw [if_neg hov, if_neg hov2, decide_eq_decide]
          exact es_dist_swap ax0 ay0 ax1 ay1 bx0 by0 bx1 by1 t
  · rcases ha : VectorService.vcoords a with _ | ⟨a1, a3⟩
    · rcases hb : VectorService.vcoords b with _ | ⟨b1, b3⟩ <;>
        simp [VectorService.is_nearby, ha, hb]
    · rcases hb : VectorService.vcoords b with _ | ⟨b1, b3⟩
      · simp [VectorService.is_nearby, ha, hb]
      · simp only [VectorService.is_nearby, ha, hb]
        rw [decide_eq_decide, vs_gap_swap]

/-- A five-entry box: long enough for Policy B's `len(...) < 4` guard, but not
a four-coordinate box. -/
def fiveEntryBox : PyBox :=
  PyBox.box [PyVal.num 0, PyVal.num 0, PyVal.num 0, PyVal.num 0, PyVal.num 0]

/-- C7 counterexample: the claim says Policy B returns `true` exactly when both
arguments are well-formed 4-coordinate numeric boxes within the vertical gap;
but a box with five entries (wrong arity) still yields `true`, because the
code only rejects `len(bbox) < 4` and only reads indices 1 and 3. -/
theorem C7_counterexample :
    VectorService.is_nearby fiveEntryBox fiveEntryBox 100 = true ∧
    fiveEntryBox = PyBox.box
      [PyVal.num 0, PyVal.num 0, PyVal.num 0, PyVal.num 0, PyVal.num 0] ∧
    [PyVal.num 0, PyVal.num 0, PyVal.num 0, PyVal.num 0,
      (PyVal.num 0 : PyVal)].length ≠ 4 := by
  refine ⟨?_, rfl, by decide⟩
  norm_num [VectorService.is_nearby, VectorService.vcoords, fiveEntryBox,
    PyVal.toFloat, pyAbs, pyMin, List.getD]

lemma vcoords_eq_some_iff (b : PyBox) (x y : ℚ) :
    VectorService.vcoords b = some (x, y) ↔
      ∃ l, b = PyBox.box l ∧ 4 ≤ l.length ∧
        l.getD 1 PyVal.nonnum = PyVal.num x ∧ l.getD 3 PyVal.nonnum = PyVal.num y := by
  cases b with
  | notList => simp [VectorService.vcoords]
  | box l =>
    constructor
    · intro h
      simp only [VectorService.vcoords] at h
      by_cases hl : l.length < 4
      · rw [if_pos hl] at h; exact absurd h (by simp)
      · rw [if_neg hl] at h
        rcases h1 : l.getD 1 PyVal.nonnum with q1 | _ <;>
          rcases h3 : l.getD 3 PyVal.nonnum with q3 | _ <;>
          rw [h1, h3] at h <;> simp [PyVal.toFloat] at h
        exact ⟨l, rfl, Nat.le_of_not_lt hl, by rw [h1, h.1], by rw [h3, h.2]⟩
    · rintro ⟨l2, hb, hlen, h1, h3⟩
      obtain rfl : l2 = l := by injection hb.symm
      simp only [VectorService.vcoords]
      rw [if_neg (Nat.not_lt.mpr hlen), h1, h3]
      rfl

/-- C7 (amended): `VectorService._is_nearby` is total (never raises) and
returns `true` exactly when both inputs are lists/tuples of length at least 4
whose entries at indices 1 and 3 are numeric and the minimum vertical gap
`min |b1[3] − b2[1]| |b2[3] − b1[1]|` is below the threshold; in every other
case (non-list, fewer than 4 entries, non-numeric entry at index 1 or 3) it
returns `false`.  Entries at indices 0 and 2 and beyond index 3 are never
inspected, so "wrong arity" means only "fewer than 4 entries". -/
theorem C7_amended :
    ∀ (b1 b2 : PyBox) (t : ℚ),
      VectorService.is_nearby b1 b2 t = true ↔
        ∃ l1 l2 a1 a3 c1 c3,
          b1 = PyBox.box l1 ∧ b2 = PyBox.box l2 ∧
          4 ≤ l1.length ∧ 4 ≤ l2.length ∧
          l1.getD 1 PyVal.nonnum = PyVal.num a1 ∧
          l1.getD 3 PyVal.nonnum = PyVal.num a3 ∧
          l2.getD 1 PyVal.nonnum = PyVal.num c1 ∧
          l2.getD 3 PyVal.nonnum = PyVal.num c3 ∧
          pyMin (pyAbs (a3 - c1)) (pyAbs (c3 - a1)) < t := by
  intro b1 b2 t
  constructor
  · intro h
    simp only [VectorService.is_nearby] at h
    rcases h1 : VectorService.vcoords b1 with _ | ⟨a1, a3⟩ <;> rw [h1] at h
    · exact absurd h (by simp)
    rcases h2 : VectorService.vcoords b2 with _ | ⟨c1, c3⟩ <;> rw [h2] at h
    · exact absurd h (by simp)
    obtain ⟨l1, hb1, hl1, e1, e3⟩ := (vcoords_eq_some_iff b1 a1 a3).mp h1
    obtain ⟨l2, hb2, hl2, f1, f3⟩ := (vcoords_eq_some_iff b2 c1 c3).mp h2
    exact ⟨l1, l2, a1, a3, c1, c3, hb1, hb2, hl1, hl2, e1, e3, f1, f3,
      by simpa using h⟩
  · rintro ⟨l1, l2, u1, u3, v1, v3, hb1, hb2, hl1, hl2, e1, e3, f1, f3, hmin⟩
    have hu : VectorService.vcoords b1 = some (u1, u3) :=
      (vcoords_eq_some_iff b1 u1 u3).mpr ⟨l1, hb1, hl1, e1, e3⟩
    have hv : VectorService.vcoords b2 = some (v1, v3) :=
      (vcoords_eq_some_iff b2 v1 v3).mpr ⟨l2, hb2, hl2, f1, f3⟩
    simp only [VectorService.is_nearby]
    rw [hu, hv]
    simpa using hmin

/-! ## Scope handling of `SearchService.search`

src/app/services/search_service.py lines 149-158.  The method performs no
validation of its scope arguments at all: it builds a SQL filter clause with
`if document_id: ... elif product_id: ... ` and otherwise leaves the clause
empty.  Python truthiness makes `None` and `0` both fall through. -/

/-- The filter clause `SearchService.search` interpolates into its SQL. -/
inductive ScopeFilter where
  | byDocument (id : ℤ)
  | byProduct (id : ℤ)
  | noFilter
deriving DecidableEq

/-- Python truthiness of an `Optional[int]`: `False` for `None` and for `0`. -/
def intTruthy : Option ℤ → Bool
  | none => false
  | some n => n != 0

/-- The clause selection of src/app/services/search_service.py lines 149-155:
`if document_id:` wins, `elif product_id:` comes second, otherwise no filter
is applied and the query runs unscoped. -/
def scopeFilter (document_id product_id : Option ℤ) : ScopeFilter :=
  if intTruthy document_id then ScopeFilter.byDocument (document_id.getD 0)
  else if intTruthy product_id then ScopeFilter.byProduct (product_id.getD 0)
  else ScopeFilter.noFilter

/-- A document row of the `documents` table, restricted to the columns the
modelled queries read.  `filename`/`version` are carried verbatim into result
rows and do not influence which rows appear, so they are omitted. -/
structure DocRow where
  id : ℤ
  product_id : ℤ
deriving DecidableEq

/-- The row predicate a scope filter imposes on the joined `documents` row,
when one exists.  The clause generated for a document scope is
`AND d.document_id = :document_id`, but the `documents` table has no
`document_id` column (its key column is `id`, see src/app/models/document.py),
so a document-scoped query fails at the database instead of filtering;
no row predicate exists for it. -/
def scopeDocPred : ScopeFilter → Option (DocRow → Bool)
  | ScopeFilter.noFilter => some fun _ => true
  | ScopeFilter.byProduct pid => some fun d => d.product_id == pid
  | ScopeFilter.byDocument _ => none

/-- C3 counterexample: the claim says a call that sets neither scope id, or
both, is rejected with a `ValidationError` before reaching the store.  In the
code neither case is rejected: with neither id set the query is built and
executed unscoped (`noFilter`), and with both set the document filter is
silently chosen and the product id ignored. -/
theorem C3_counterexample :
    scopeFilter none none = ScopeFilter.noFilter ∧
    scopeFilter (some 1) (some 2) = ScopeFilter.byDocument 1 := by
  exact ⟨rfl, rfl⟩

/-- C3 (amended): `SearchService.search` performs no scope validation and
never raises for a malformed scope: the query it executes is unscoped exactly
when both ids are Python-falsy (absent or 0); whenever `document_id` is
truthy the document clause is used — even when `product_id` is also set,
which is silently ignored; and the product clause is used exactly when
`document_id` is falsy and `product_id` truthy. -/
theorem C3_amended :
    ∀ d p : Option ℤ,
      (scopeFilter d p = ScopeFilter.noFilter ↔
        intTruthy d = false ∧ intTruthy p = false) ∧
      (intTruthy d = true → scopeFilter d p = ScopeFilter.byDocument (d.getD 0)) ∧
      (intTruthy d = false → intTruthy p = true →
        scopeFilter d p = ScopeFilter.byProduct (p.getD 0)) := by
  intro d p
  unfold scopeFilter
  rcases hd : intTruthy d <;> rcases hp : intTruthy p <;> simp

/-- C10: calling `search` with `document_id = 0` or `product_id = 0` applies
no scope filter at all: `0` is Python-falsy, so the zero id is treated as
absent, the filter clause stays empty, and the query runs unscoped — the
empty clause restricts no document row. -/
theorem C10_zero_id_unscoped :
    scopeFilter (some 0) none = ScopeFilter.noFilter ∧
    scopeFilter none (some 0) = ScopeFilter.noFilter ∧
    scopeFilter (some 0) (some 0) = ScopeFilter.noFilter ∧
    (∀ docs : List DocRow, ∃ pred,
      scopeDocPred (scopeFilter (some 0) none) = some pred ∧
      docs.filter pred = docs) := by
  refine ⟨rfl, rfl, rfl, fun docs => ⟨fun _ => true, rfl, ?_⟩⟩
  simp [List.filter]

/-! ## Window expansion of `SearchService.search`

src/app/services/search_service.py lines 95-113 (the `context_chunks` CTE).
Given the rows of `initial_matches`, the CTE joins `document_chunks dc` with
`documents d` on `d.id = dc.document_id`, with `initial_matches im` on
`dc.document_id = im.document_id`, keeps rows whose page number lies between
`im.page_number - context_pages` and `im.page_number + context_pages`, applies
the scope filter clause, and carries `im.similarity` as
`original_similarity`.  The join is modelled as a filtered product of the row
lists; the outer `ORDER BY` does not change which rows appear. -/

/-- A `document_chunks` row, restricted to the columns that decide membership
in `context_chunks` (`content`/`chunk_metadata` are carried verbatim). -/
structure ChunkRow where
  id : ℕ
  document_id : ℤ
  page_number : ℤ
deriving DecidableEq

/-- A row of the `initial_matches` CTE. -/
structure MatchRow where
  id : ℕ
  document_id : ℤ
  page_number : ℤ
  similarity : ℚ
deriving DecidableEq

/-- A row of the `context_chunks` CTE. -/
structure CtxRow where
  id : ℕ
  document_id : ℤ
  product_id : ℤ
  page_number : ℤ
  original_similarity : ℚ
deriving DecidableEq

/-- The `context_chunks` CTE as a filtered product.  `docPred` is the row
predicate of the (executable) scope filter clause, see `scopeDocPred`. -/
def contextChunks (chunks : List ChunkRow) (docs : List DocRow)
    (ims : List MatchRow) (context_pages : ℤ) (docPred : DocRow → Bool) :
    List CtxRow :=
  chunks.flatMap fun dc =>
    docs.flatMap fun d =>
      ims.filterMap fun im =>
        if d.id = dc.document_id ∧ dc.document_id = im.document_id ∧
            im.page_number - context_pages ≤ dc.page_number ∧
            dc.page_number ≤ im.page_number + context_pages ∧
            docPred d = true then
          some ⟨dc.id, dc.document_id, d.product_id, dc.page_number, im.similarity⟩
        else none

/-- Chunk 1 lives in document 1, chunk 2 in document 2; both documents belong
to product 7, and both chunks sit on page 1. -/
def c9chunks : List ChunkRow := [⟨1, 1, 1⟩, ⟨2, 2, 1⟩]

def c9docs : List DocRow := [⟨1, 7⟩, ⟨2, 7⟩]

/-- The single initial match: chunk 1 of document 1, page 1. -/
def c9matches : List MatchRow := [⟨1, 1, 1, ⟨9, 10, by decide, by decide⟩⟩]

/-- The executable clause of a product-7 scope. -/
def c9pred : DocRow → Bool := fun d => d.product_id == 7

/-- C9 counterexample: the claim says a product-scoped search windows over
every chunk of the scope, across all of the product's documents.  Here chunk 2
is in scope (its document belongs to product 7) and its page 1 lies inside the
window `[1 − 3, 1 + 3]` of the only initial match, yet `context_chunks`
returns only chunk 1: the join condition `dc.document_id = im.document_id`
restricts the window to the matched chunk's own document. -/
theorem C9_counterexample :
    c9pred ⟨2, 7⟩ = true ∧
    ((1 : ℤ) - 3 ≤ 1 ∧ (1 : ℤ) ≤ 1 + 3) ∧
    (contextChunks c9chunks c9docs c9matches 3 c9pred).map CtxRow.id = [1] := by
  refine ⟨rfl, by decide, by decide⟩

/-- C9 (amended): a row appears in `context_chunks` exactly for a chunk, a
document row and an initial match such that the chunk belongs to that document
row, the chunk's document is the *match's own document*, the chunk's page lies
within `[match.page − context_pages, match.page + context_pages]`, and the
scope clause accepts the document row; the emitted row carries the originating
match's similarity, not the chunk's own.  In a product-scoped search chunks of
the product's other documents are therefore not windowed in (unless matched in
their own document); the claim's "every chunk in the same scope" holds only
within the matched document. -/
theorem C9_amended :
    ∀ (chunks : List ChunkRow) (docs : List DocRow) (ims : List MatchRow)
      (cp : ℤ) (docPred : DocRow → Bool) (r : CtxRow),
      r ∈ contextChunks chunks docs ims cp docPred ↔
        ∃ dc ∈ chunks, ∃ d ∈ docs, ∃ im ∈ ims,
          d.id = dc.document_id ∧ dc.document_id = im.document_id ∧
          im.page_number - cp ≤ dc.page_number ∧
          dc.page_number ≤ im.page_number + cp ∧
          docPred d = true ∧
          r = ⟨dc.id, dc.document_id, d.product_id, dc.page_number, im.similarity⟩ := by
  intro chunks docs ims cp docPred r
  unfold contextChunks
  simp only [List.mem_flatMap, List.mem_filterMap]
  constructor
  · rintro ⟨dc, hdc, d, hd, im, him, hite⟩
    by_cases hc : d.id = dc.document_id ∧ dc.document_id = im.document_id ∧
        im.page_number - cp ≤ dc.page_number ∧
        dc.page_number ≤ im.page_number + cp ∧ docPred d = true
    · rw [if_pos hc] at hite
      exact ⟨dc, hdc, d, hd, im, him, hc.1, hc.2.1, hc.2.2.1, hc.2.2.2.1,
        hc.2.2.2.2, (Option.some.inj hite).symm⟩
    · rw [if_neg hc] at hite
      exact absurd hite (by simp)
  · rintro ⟨dc, hdc, d, hd, im, him, h1, h2, h3, h4, h5, rfl⟩
    exact ⟨dc, hdc, d, hd, im, him, by rw [if_pos ⟨h1, h2, h3, h4, h5⟩]⟩

/-! ## The chunker (`EmbeddingService.chunk_text`)

src/app/services/embedding_service.py lines 52-91.  Strings are modelled as
`List Char`.  The steps of the source:
`text = re.sub(r'\s+', ' ', text).strip()` (collapse whitespace runs to a
single space, then strip), `sentences = re.split(r'(?<=[.!?])\s+(?=[A-Z])',
text)` (on the collapsed text every whitespace run is one space, so the
separator is a single space preceded by `.`/`!`/`?` and followed by `A`-`Z`),
then a loop accumulating sentences into chunks of at most
`self.chunk_size = 512` whitespace-delimited words (`len(sentence.split())`),
flushing the open chunk when the next sentence would overflow it.
`self.chunk_overlap` is configured but never used by `chunk_text`. -/

/-- Python's `\s` class for the ASCII range: space, tab, newline, carriage
return, vertical tab, form feed. -/
def isWs (c : Char) : Bool :=
  c == ' ' || c == '\t' || c == '\n' || c == '\r' || c == '\x0b' || c == '\x0c'

lemma isWs_space : isWs ' ' = true := rfl

/-- `re.sub(r'\s+', ' ', text)`: each maximal whitespace run becomes a single
space.  The flag records whether the previous character was whitespace (i.e.
whether we are inside a run that has already emitted its space). -/
def collapseWsAux : Bool → List Char → List Char
  | _, [] => []
  | prevWs, c :: rest =>
    if isWs c then
      if prevWs then collapseWsAux true rest
      else ' ' :: collapseWsAux true rest
    else c :: collapseWsAux false rest

def collapseWs (cs : List Char) : List Char := collapseWsAux false cs

/-- Python `str.strip()`: drop leading and trailing whitespace. -/
def pyStrip (cs : List Char) : List Char :=
  ((cs.dropWhile isWs).reverse.dropWhile isWs).reverse

/-- `re.sub(r'\s+', ' ', text).strip()`. -/
def normalizeWs (cs : List Char) : List Char := pyStrip (collapseWs cs)

/-- The regex class `[.!?]` (sentence-ending punctuation). -/
def isSentEnd (c : Char) : Bool := c == '.' || c == '!' || c == '?'

/-- The regex class `[A-Z]`. -/
def isCapAZ (c : Char) : Bool := decide ('A' ≤ c ∧ c ≤ 'Z')

/-- `re.split(r'(?<=[.!?])\s+(?=[A-Z])', text)` on a whitespace-collapsed
text: the separator is a single space whose predecessor is sentence-ending
punctuation and whose successor is a capital letter; the space is consumed,
the punctuation stays with the left piece and the capital with the right.
Like `re.split`, the result is never empty (`[""]` for empty input). -/
def splitSentencesAux : List Char → List Char → List (List Char)
  | acc, [] => [acc.reverse]
  | acc, c :: ' ' :: d :: rest2 =>
    if isSentEnd c && isCapAZ d then
      (acc.reverse ++ [c]) :: splitSentencesAux [] (d :: rest2)
    else
      splitSentencesAux (c :: acc) (' ' :: d :: rest2)
  | acc, c :: rest => splitSentencesAux (c :: acc) rest
termination_by _ cs => cs.length
decreasing_by all_goals (simp [List.length_cons]; try omega)

/-- Python `str.split()` (no argument): whitespace-delimited words, with no
empty pieces. -/
def wordsAux : List Char → List Char → List (List Char)
  | cur, [] => if cur.isEmpty then [] else [cur.reverse]
  | cur, c :: cs =>
    if isWs c then
      if cur.isEmpty then wordsAux [] cs else cur.reverse :: wordsAux [] cs
    else wordsAux (c :: cur) cs

def wordsOf (cs : List Char) : List (List Char) := wordsAux [] cs

/-- `' '.join(pieces)`. -/
def joinSp : List (List Char) → List Char
  | [] => []
  | [x] => x
  | x :: y :: rest => x ++ ' ' :: joinSp (y :: rest)

/-- The sentence-accumulation loop of `chunk_text` (lines 67-89): running
chunk `cur`, running word count `curLen`; a sentence that would push the count
over `chunkSize` closes the current chunk (when there is one) and starts a
new chunk with that sentence alone; the final partial chunk is flushed. -/
def chunkLoop (chunkSize : ℕ) : List (List Char) → List (List Char) → ℕ → List (List Char)
  | [], cur, _ => if cur.isEmpty then [] else [joinSp cur]
  | s :: rest, cur, curLen =>
    if chunkSize < curLen + (wordsOf s).length then
      if cur.isEmpty then chunkLoop chunkSize rest [s] (wordsOf s).length
      else joinSp cur :: chunkLoop chunkSize rest [s] (wordsOf s).length
    else chunkLoop chunkSize rest (cur ++ [s]) (curLen + (wordsOf s).length)

namespace EmbeddingService

/-- `EmbeddingService.chunk_text` with the service's `chunk_size = 512`. -/
def chunk_text (text : List Char) : List (List Char) :=
  chunkLoop 512 (splitSentencesAux [] (normalizeWs text)) [] 0

end EmbeddingService

lemma wordsAux_append_space (y : List Char) :
    ∀ (x cur : List Char),
      wordsAux cur (x ++ ' ' :: y) = wordsAux cur x ++ wordsAux [] y := by
  intro x
  induction x with
  | nil =>
    intro cur
    cases hcur : cur.isEmpty <;> simp [wordsAux, isWs_space, hcur]
  | cons c xs ih =>
    intro cur
    cases hc : isWs c
    · simp [wordsAux, hc, ih]
    · cases hcur : cur.isEmpty <;> simp [wordsAux, hc, hcur, ih]

lemma wordsOf_joinSp : ∀ L : List (List Char),
    wordsOf (joinSp L) = (L.map wordsOf).flatten := by
  intro L
  induction L with
  | nil => rfl
  | cons x rest ih =>
    cases rest with
    | nil => simp [joinSp, wordsOf]
    | cons y t =>
      have hj : joinSp (x :: y :: t) = x ++ ' ' :: joinSp (y :: t) := rfl
      rw [hj, wordsOf, wordsAux_append_space]
      have h2 : wordsAux [] (joinSp (y :: t)) = ((y :: t).map wordsOf).flatten := ih
      rw [h2]
      simp [wordsOf]

lemma chunkLoop_words (n : ℕ) :
    ∀ (s cur : List (List Char)) (len : ℕ),
      ((chunkLoop n s cur len).map wordsOf).flatten =
        (cur.map wordsOf).flatten ++ (s.map wordsOf).flatten := by
  intro s
  induction s with
  | nil =>
    intro cur len
    cases hcur : cur.isEmpty
    · simp [chunkLoop, hcur, wordsOf_joinSp]
    · have hc : cur = [] := List.isEmpty_iff.mp hcur
      simp [chunkLoop, hcur, hc]
  | cons sen rest ih =>
    intro cur len
    by_cases h1 : n < len + (wordsOf sen).length
    · cases hcur : cur.isEmpty
      · simp [chunkLoop, h1, hcur, ih, wordsOf_joinSp]
      · have hc : cur = [] := List.isEmpty_iff.mp hcur
        simp [chunkLoop, h1, hcur, hc, ih]
    · simp [chunkLoop, h1, ih]

lemma joinSp_cons (a : List Char) {L : List (List Char)} (h : L ≠ []) :
    joinSp (a :: L) = a ++ ' ' :: joinSp L := by
  cases L with
  | nil => exact absurd rfl h
  | cons y t => rfl

lemma joinSp_ne_nil :
    ∀ L : List (List Char), L ≠ [] → (∀ x ∈ L, x ≠ []) → joinSp L ≠ [] := by
  intro L hL hx
  cases L with
  | nil => exact absurd rfl hL
  | cons x t =>
    cases t with
    | nil => simpa [joinSp] using hx x (by simp)
    | cons y t2 =>
      rw [joinSp_cons x (by simp)]
      intro h
      have h2 := (List.append_eq_nil.mp h).2
      simp at h2

lemma chunkLoop_ne_nil (n : ℕ) :
    ∀ (s cur : List (List Char)) (len : ℕ),
      (∀ x ∈ cur, x ≠ []) → (∀ x ∈ s, x ≠ []) →
      ∀ ch ∈ chunkLoop n s cur len, ch ≠ [] := by
  intro s
  induction s with
  | nil =>
    intro cur len hcur _ ch hch
    cases he : cur.isEmpty
    · rw [chunkLoop, he] at hch
      simp at hch
      rw [hch]
      exact joinSp_ne_nil cur (by simpa using he) hcur
    · rw [chunkLoop, he] at hch
      simp at hch
  | cons sen rest ih =>
    intro cur len hcur hs ch hch
    have hsen : sen ≠ [] := hs sen (by simp)
    have hrest : ∀ x ∈ rest, x ≠ [] := fun x hx => hs x (by simp [hx])
    by_cases h1 : n < len + (wordsOf sen).length
    · cases he : cur.isEmpty
      · rw [chunkLoop, if_pos h1, he] at hch
        simp only [Bool.false_eq_true, if_false, List.mem_cons] at hch
        rcases hch with hch | hch
        · rw [hch]
          exact joinSp_ne_nil cur (by simpa using he) hcur
        · exact ih [sen] (wordsOf sen).length (by simpa using hsen) hrest ch hch
      · rw [chunkLoop, if_pos h1, he] at hch
        simp only [if_true] at hch
        exact ih [sen] (wordsOf sen).length (by simpa using hsen) hrest ch hch
    · rw [chunkLoop, if_neg h1] at hch
      refine ih (cur ++ [sen]) (len + (wordsOf sen).length) ?_ hrest ch hch
      intro x hx
      rcases List.mem_append.mp hx with hx | hx
      · exact hcur x hx
      · simp at hx; rw [hx]; exact hsen

lemma splitSentencesAux_ne_nil :
    ∀ (acc cs : List Char), splitSentencesAux acc cs ≠ [] := by
  intro acc cs
  induction acc, cs using splitSentencesAux.induct with
  | case1 acc => simp [splitSentencesAux]
  | case2 acc c d rest2 hcd ih => rw [splitSentencesAux.eq_2, if_pos hcd]; simp
  | case3 acc c d rest2 hcd ih => rw [splitSentencesAux.eq_2, if_neg hcd]; exact ih
  | case4 acc c rest hne ih => rw [splitSentencesAux.eq_3 acc c rest hne]; exact ih

lemma splitSentencesAux_joinSp :
    ∀ (acc cs : List Char), joinSp (splitSentencesAux acc cs) = acc.reverse ++ cs := by
  intro acc cs
  induction acc, cs using splitSentencesAux.induct with
  | case1 acc => simp [splitSentencesAux, joinSp]
  | case2 acc c d rest2 hcd ih =>
    rw [splitSentencesAux.eq_2, if_pos hcd,
      joinSp_cons _ (splitSentencesAux_ne_nil [] (d :: rest2)), ih]
    simp
  | case3 acc c d rest2 hcd ih =>
    rw [splitSentencesAux.eq_2, if_neg hcd, ih]
    simp
  | case4 acc c rest hne ih =>
    rw [splitSentencesAux.eq_3 acc c rest hne, ih]
    simp

lemma splitSentencesAux_pieces_ne_nil :
    ∀ (acc cs : List Char), acc ≠ [] ∨ cs ≠ [] →
      ∀ p ∈ splitSentencesAux acc cs, p ≠ [] := by
  intro acc cs
  induction acc, cs using splitSentencesAux.induct with
  | case1 acc =>
    rintro (h | h) p hp
    · simp [splitSentencesAux] at hp
      rw [hp]
      simpa using h
    · exact absurd rfl h
  | case2 acc c d rest2 hcd ih =>
    intro _ p hp
    rw [splitSentencesAux.eq_2, if_pos hcd] at hp
    rcases List.mem_cons.mp hp with hp | hp
    · rw [hp]; simp
    · exact ih (Or.inr (by simp)) p hp
  | case3 acc c d rest2 hcd ih =>
    intro _ p hp
    rw [splitSentencesAux.eq_2, if_neg hcd] at hp
    exact ih (Or.inl (by simp)) p hp
  | case4 acc c rest hne ih =>
    intro _ p hp
    rw [splitSentencesAux.eq_3 acc c rest hne] at hp
    exact ih (Or.inl (by simp)) p hp

lemma wordsAux_dropWhileWs :
    ∀ cs : List Char, wordsAux [] (cs.dropWhile isWs) = wordsAux [] cs := by
  intro cs
  induction cs with
  | nil => rfl
  | cons c rest ih =>
    cases h : isWs c
    · simp [List.dropWhile, h]
    · simpa [List.dropWhile, h, wordsAux] using ih

lemma wordsAux_collapseAux :
    ∀ (cs cur : List Char) (prevWs : Bool), (prevWs = true → cur = []) →
      wordsAux cur (collapseWsAux prevWs cs) = wordsAux cur cs := by
  intro cs
  induction cs with
  | nil => intro cur prevWs _; rfl
  | cons c rest ih =>
    intro cur prevWs hpc
    cases hc : isWs c
    · simp only [collapseWsAux, hc]
      simp only [Bool.false_eq_true, if_false]
      simp only [wordsAux, hc, Bool.false_eq_true, if_false]
      exact ih (c :: cur) false (by simp)
    · cases prevWs with
      | false =>
        simp only [collapseWsAux, hc, if_true, Bool.false_eq_true, if_false]
        cases hcur : cur.isEmpty
        · simp only [wordsAux, isWs_space, hc, if_true, hcur, Bool.false_eq_true,
            if_false]
          rw [ih [] true (fun _ => rfl)]
        · simp only [wordsAux, isWs_space, hc, if_true, hcur]
          rw [ih [] true (fun _ => rfl)]
      | true =>
        have hcur : cur = [] := hpc rfl
        subst hcur
        simp only [collapseWsAux, hc, if_true]
        rw [ih [] true (fun _ => rfl)]
        simp [wordsAux, hc]

lemma wordsAux_append_allWs :
    ∀ (t : List Char) (cur : List Char), (∀ c ∈ t, isWs c = true) →
      wordsAux cur t = wordsAux cur [] := by
  intro t
  induction t with
  | nil => intro cur _; rfl
  | cons c rest ih =>
    intro cur ht
    have hc : isWs c = true := ht c (by simp)
    have hrest : ∀ x ∈ rest, isWs x = true := fun x hx => ht x (by simp [hx])
    cases hcur : cur.isEmpty
    · have hc2 : cur ≠ [] := by simpa using hcur
      simp [wordsAux, hc, hcur, ih [] hrest, hc2]
    · have hc2 : cur = [] := List.isEmpty_iff.mp hcur
      subst hc2
      simp [wordsAux, hc, ih [] hrest]

lemma wordsAux_append_trailing :
    ∀ (x : List Char) (cur t : List Char), (∀ c ∈ t, isWs c = true) →
      wordsAux cur (x ++ t) = wordsAux cur x := by
  intro x
  induction x with
  | nil =>
    intro cur t ht
    simpa using wordsAux_append_allWs t cur ht
  | cons c xs ih =>
    intro cur t ht
    cases hc : isWs c
    · simp [wordsAux, hc, ih _ _ ht]
    · cases hcur : cur.isEmpty <;> simp [wordsAux, hc, hcur, ih _ _ ht]

lemma pyStrip_words (cs : List Char) : wordsOf (pyStrip cs) = wordsOf cs := by
  unfold pyStrip wordsOf
  set a := cs.dropWhile isWs with ha
  have h1 : wordsAux [] a = wordsAux [] cs := wordsAux_dropWhileWs cs
  rw [← h1]
  have hsplit : a = ((a.reverse.dropWhile isWs).reverse : List Char) ++
      (a.reverse.takeWhile isWs).reverse := by
    conv_lhs => rw [← List.reverse_reverse a,
      ← List.takeWhile_append_dropWhile (p := isWs) (l := a.reverse)]
    rw [List.reverse_append]
  have hws : ∀ c ∈ (a.reverse.takeWhile isWs).reverse, isWs c = true := by
    intro c hc
    exact List.mem_takeWhile_imp (List.mem_reverse.mp hc)
  conv_rhs => rw [hsplit]
  exact (wordsAux_append_trailing _ _ _ hws).symm

lemma normalizeWs_words (cs : List Char) : wordsOf (normalizeWs cs) = wordsOf cs := by
  unfold normalizeWs collapseWs
  rw [pyStrip_words]
  exact wordsAux_collapseAux cs [] false (by simp)

lemma wordsAux_ne_nil_of_cur :
    ∀ (cs cur : List Char), cur ≠ [] → wordsAux cur cs ≠ [] := by
  intro cs
  induction cs with
  | nil =>
    intro cur h
    simp [wordsAux, h]
  | cons c rest ih =>
    intro cur h
    have he : cur.isEmpty = false := by simpa using h
    cases hc : isWs c
    · simp only [wordsAux, hc, Bool.false_eq_true, if_false]
      exact ih (c :: cur) (by simp)
    · simp [wordsAux, hc, he]

lemma wordsOf_ne_nil :
    ∀ cs : List Char, (∃ c ∈ cs, isWs c = false) → wordsOf cs ≠ [] := by
  intro cs
  induction cs with
  | nil => rintro ⟨c, hc, _⟩; simp at hc
  | cons c rest ih =>
    rintro ⟨e, he, hw⟩
    cases hc : isWs c
    · unfold wordsOf
      simp only [wordsAux, hc, Bool.false_eq_true, if_false]
      exact wordsAux_ne_nil_of_cur rest [c] (by simp)
    · have he2 : e ∈ rest := by
        rcases List.mem_cons.mp he with rfl | h
        · rw [hc] at hw; simp at hw
        · exact h
      unfold wordsOf
      simp only [wordsAux, hc, if_true, List.isEmpty_nil]
      exact ih ⟨e, he2, hw⟩

lemma normalizeWs_ne_nil (text : List Char) (h : ∃ c ∈ text, isWs c = false) :
    normalizeWs text ≠ [] := by
  intro hnil
  have h1 : wordsOf (normalizeWs text) = wordsOf text := normalizeWs_words text
  rw [hnil] at h1
  have h2 : wordsOf text ≠ [] := wordsOf_ne_nil text h
  exact h2 (by simpa [wordsOf, wordsAux] using h1.symm)

/-- C4 counterexample: the claim says every chunk of `chunk_text` is
non-empty for every input text; but on the empty (or whitespace-only) input
`re.split` returns `[""]`, the loop keeps the empty sentence, and the flushed
chunk list is `[""]` — a chunk that is the empty string. -/
theorem C4_counterexample :
    EmbeddingService.chunk_text [] = [[]] ∧
    EmbeddingService.chunk_text [' '] = [[]] ∧
    [] ∈ EmbeddingService.chunk_text [] := by
  have h0 : EmbeddingService.chunk_text [] = [[]] := by
    simp [EmbeddingService.chunk_text, normalizeWs, pyStrip, collapseWs,
      collapseWsAux, splitSentencesAux, chunkLoop, joinSp, wordsOf, wordsAux]
  have h1 : EmbeddingService.chunk_text [' '] = [[]] := by
    simp [EmbeddingService.chunk_text, normalizeWs, pyStrip, collapseWs,
      collapseWsAux, isWs_space, splitSentencesAux, chunkLoop, joinSp, wordsOf,
      wordsAux]
  exact ⟨h0, h1, by rw [h0]; simp⟩

/-- C4 (amended): for every input text, joining the chunks of
`chunk_text(text)` with single spaces reproduces the original text's
whitespace-delimited words exactly, with no omissions and no reordering; and
every chunk is non-empty provided the text contains at least one
non-whitespace character (for empty or whitespace-only input the result is
the single empty chunk `[""]`, see the counterexample). -/
theorem C4_amended :
    ∀ text : List Char,
      wordsOf (joinSp (EmbeddingService.chunk_text text)) = wordsOf text ∧
      ((∃ c ∈ text, isWs c = false) →
        ∀ ch ∈ EmbeddingService.chunk_text text, ch ≠ []) := by
  intro text
  constructor
  · unfold EmbeddingService.chunk_text
    rw [wordsOf_joinSp, chunkLoop_words]
    simp only [List.map_nil, List.flatten_nil, List.nil_append]
    rw [← wordsOf_joinSp, splitSentencesAux_joinSp]
    simpa using normalizeWs_words text
  · intro hx ch hch
    refine chunkLoop_ne_nil 512 _ [] 0 (by simp) ?_ ch hch
    exact splitSentencesAux_pieces_ne_nil [] (normalizeWs text)
      (Or.inr (normalizeWs_ne_nil text hx))

/-! ## The encoder (`EmbeddingService.create_embeddings`)

src/app/services/embedding_service.py lines 30-50: raise
`ValueError("Empty text provided for embedding")` when `text.strip()` is
falsy, otherwise encode with the wrapped sentence-transformer model and divide
by the L2 norm.  The wrapped model and the norm division are the external
capability (their values involve irrational square roots), so they enter the
embedding as opaque function parameters `enc` and `nrm`; the `try/except`
wrapper logs and re-raises, changing nothing. -/

/-- The error raised by `create_embeddings` (the spec's `ValidationError`
taxonomy entry; the code raises Python `ValueError`). -/
inductive EmbError where
  | valueError
deriving DecidableEq

namespace EmbeddingService

/-- `EmbeddingService.create_embeddings` with the model call and the
normalization abstracted as `enc` and `nrm`. -/
def create_embeddings {E : Type} (enc : List Char → E) (nrm : E → E)
    (text : List Char) : Except EmbError E :=
  if (pyStrip text).isEmpty then Except.error EmbError.valueError
  else Except.ok (nrm (enc text))

end EmbeddingService

lemma forall_mem_dropWhile_iff (cs : List Char) :
    (∀ c ∈ cs.dropWhile isWs, isWs c = true) ↔ ∀ c ∈ cs, isWs c = true := by
  constructor
  · intro h c hc
    have hc2 : c ∈ cs.takeWhile isWs ++ cs.dropWhile isWs := by
      rw [List.takeWhile_append_dropWhile]; exact hc
    rcases List.mem_append.mp hc2 with h1 | h1
    · exact List.mem_takeWhile_imp h1
    · exact h c h1
  · intro h c hc
    exact h c ((List.dropWhile_sublist _).subset hc)

lemma pyStrip_eq_nil_iff (cs : List Char) :
    pyStrip cs = [] ↔ ∀ c ∈ cs, isWs c = true := by
  unfold pyStrip
  rw [List.reverse_eq_nil_iff, List.dropWhile_eq_nil_iff]
  constructor
  · intro h
    rw [← forall_mem_dropWhile_iff]
    intro c hc
    exact h c (List.mem_reverse.mpr hc)
  · intro h c hc
    exact (forall_mem_dropWhile_iff cs).mpr h c (List.mem_reverse.mp hc)

/-- C5: `create_embeddings` fails with the validation error exactly when the
text is empty or whitespace-only; for every other input it returns normally
with the normalized model output (assuming the wrapped model succeeds, i.e.
for arbitrary `enc`/`nrm`). -/
theorem C5_encode_error_iff_blank :
    ∀ {E : Type} (enc : List Char → E) (nrm : E → E) (text : List Char),
      (EmbeddingService.create_embeddings enc nrm text =
          Except.error EmbError.valueError ↔ ∀ c ∈ text, isWs c = true) ∧
      ((∃ c ∈ text, isWs c = false) →
        EmbeddingService.create_embeddings enc nrm text =
          Except.ok (nrm (enc text))) := by
  intro E enc nrm text
  have hiff : pyStrip text = [] ↔ ∀ c ∈ text, isWs c = true :=
    pyStrip_eq_nil_iff text
  cases h : (pyStrip text).isEmpty
  · have hne : pyStrip text ≠ [] := by simpa using h
    refine ⟨⟨fun he => ?_, fun hall => absurd (hiff.mpr hall) hne⟩, fun _ => ?_⟩
    · simp [EmbeddingService.create_embeddings, h] at he
    · simp [EmbeddingService.create_embeddings, h]
  · have hnil : pyStrip text = [] := by simpa using h
    refine ⟨⟨fun _ => hiff.mp hnil, fun _ => ?_⟩, fun hex => ?_⟩
    · simp [EmbeddingService.create_embeddings, h]
    · rcases hex with ⟨c, hc, hw⟩
      have hws := hiff.mp hnil c hc
      rw [hw] at hws
      exact absurd hws (by simp)

/-! ## The result assembler (`SearchService.search`, grouping pass)

src/app/services/search_service.py lines 173-254: a single pass over the
ordered SQL rows.  Each row carries the chunk id, content, page number, the
originating match's similarity (`original_similarity`), and its image/table
reference lists.  The loop:
* skips a row whose chunk id was already seen;
* drops, from the row's image list, every filename already seen anywhere in
  the call (global image dedup), recording the rest;
* on `original_similarity > threshold` flushes the open group (removing
  duplicate page numbers, first occurrence wins) and opens a new group with
  this row as context and sole member;
* otherwise appends the row to the open group, or discards it when no group
  is open;
* at the end flushes the last group, with an extra rule (lines 236-239): a
  page whose content equals the context's content is skipped when the group
  has exactly one element.
The row's `document` and `bbox` fields are copied verbatim into the result
and never influence the control flow, so they are omitted from the model. -/

structure ImageRef where
  filename : String
  path : String
deriving DecidableEq

/-- A row of the SQL result consumed by the grouping pass. -/
structure SRow where
  id : ℕ
  content : String
  page_number : ℤ
  original_similarity : ℚ
  images : List ImageRef
  tables : List ImageRef
deriving DecidableEq

/-- A `result_item` dict (the fields the pass reads or builds). -/
structure ResultItem where
  content : String
  page_number : ℤ
  similarity : ℚ
  images : List ImageRef
  tables : List ImageRef
deriving DecidableEq

structure ContextGroup where
  context : Option ResultItem
  pages : List ResultItem
deriving DecidableEq

/-- Lines 186-191: keep the images whose filename is not yet in
`seen_images`, adding kept filenames to the set; returns the kept images and
the grown set. -/
def dedupImages : List String → List ImageRef → List ImageRef × List String
  | seen, [] => ([], seen)
  | seen, img :: rest =>
    if img.filename ∈ seen then dedupImages seen rest
    else
      ((img :: (dedupImages (img.filename :: seen) rest).1),
        (dedupImages (img.filename :: seen) rest).2)

/-- Lines 213-219 and 233-242 (shared shape): keep the first row of each page
number. -/
def dedupPages : List ℤ → List ResultItem → List ResultItem
  | _, [] => []
  | seen, p :: rest =>
    if p.page_number ∈ seen then dedupPages seen rest
    else p :: dedupPages (p.page_number :: seen) rest

/-- Lines 233-242, flush of the final group: like `dedupPages`, except that a
page whose content equals the context's content is skipped when the whole
group has exactly one element (`len(current_group) == 1` reads the full list,
constant during the loop). -/
def dedupPagesFinal (ctx : ResultItem) (groupLen : ℕ) :
    List ℤ → List ResultItem → List ResultItem
  | _, [] => []
  | seen, p :: rest =>
    if p.content = ctx.content ∧ groupLen = 1 then
      dedupPagesFinal ctx groupLen seen rest
    else if p.page_number ∈ seen then dedupPagesFinal ctx groupLen seen rest
    else p :: dedupPagesFinal ctx groupLen (p.page_number :: seen) rest

/-- The loop state: accumulated groups, the open group's context and members,
and the two seen-sets. -/
structure AsmState where
  results : List ContextGroup
  current_context : Option ResultItem
  current_group : List ResultItem
  seen_chunks : List ℕ
  seen_images : List String
deriving DecidableEq

/-- One iteration of the row loop (lines 180-229). -/
def asmStep (threshold : ℚ) (st : AsmState) (row : SRow) : AsmState :=
  if row.id ∈ st.seen_chunks then st
  else
    let item : ResultItem :=
      { content := row.content, page_number := row.page_number,
        similarity := row.original_similarity,
        images := (dedupImages st.seen_images row.images).1,
        tables := row.tables }
    if threshold < row.original_similarity then
      { results :=
          if st.current_group.isEmpty then st.results
          else st.results ++
            [{ context := st.current_context,
               pages := dedupPages [] st.current_group }],
        current_context := some item,
        current_group := [item],
        seen_chunks := row.id :: st.seen_chunks,
        seen_images := (dedupImages st.seen_images row.images).2 }
    else if st.current_context.isSome then
      { st with
        current_group := st.current_group ++ [item],
        seen_chunks := row.id :: st.seen_chunks,
        seen_images := (dedupImages st.seen_images row.images).2 }
    else
      { st with
        seen_chunks := row.id :: st.seen_chunks,
        seen_images := (dedupImages st.seen_images row.images).2 }

/-- The flush after the loop (lines 231-247): emitted only when both a group
and a context are open. -/
def asmFinish (st : AsmState) : List ContextGroup :=
  match st.current_context with
  | some ctx =>
    if st.current_group.isEmpty then st.results
    else st.results ++
      [{ context := some ctx,
         pages := dedupPagesFinal ctx st.current_group.length []
           st.current_group }]
  | none => st.results

namespace SearchService

/-- The grouping pass of `SearchService.search` over the ordered rows. -/
def assemble (threshold : ℚ) (rows : List SRow) : List ContextGroup :=
  asmFinish (rows.foldl (asmStep threshold)
    { results := [], current_context := none, current_group := [],
      seen_chunks := [], seen_images := [] })

end SearchService

/-- The property C2 asserts of one emitted group: it has a context and the
context's similarity is strictly above the caller's threshold. -/
def groupCtxAbove (t : ℚ) (g : ContextGroup) : Bool :=
  match g.context with
  | some c => decide (t < c.similarity)
  | none => false

/-- The loop invariant behind C2. -/
def AsmInv (t : ℚ) (st : AsmState) : Prop :=
  (∀ g ∈ st.results, groupCtxAbove t g = true) ∧
  (st.current_group ≠ [] → st.current_context.isSome = true) ∧
  (∀ c, st.current_context = some c → t < c.similarity)

lemma asmStep_inv (t : ℚ) (st : AsmState) (row : SRow) (h : AsmInv t st) :
    AsmInv t (asmStep t st row) := by
  obtain ⟨h1, h2, h3⟩ := h
  unfold asmStep
  by_cases hseen : row.id ∈ st.seen_chunks
  · rw [if_pos hseen]; exact ⟨h1, h2, h3⟩
  · rw [if_neg hseen]
    by_cases hsim : t < row.original_similarity
    · rw [if_pos hsim]
      refine ⟨?_, fun _ => rfl, ?_⟩
      · intro g hg
        simp only at hg
        by_cases hge : st.current_group.isEmpty
        · rw [if_pos hge] at hg
          exact h1 g hg
        · rw [if_neg hge] at hg
          rcases List.mem_append.mp hg with hg | hg
          · exact h1 g hg
          · have hgs : st.current_group ≠ [] := by
              intro hnil
              exact hge (by simp [hnil])
            obtain ⟨c, hc⟩ := Option.isSome_iff_exists.mp (h2 hgs)
            have hgg : g =
                ⟨st.current_context, dedupPages [] st.current_group⟩ := by
              simpa using hg
            rw [hgg]
            unfold groupCtxAbove
            rw [hc]
            simpa using h3 c hc
      · intro c hc
        have hcv : c =
            ⟨row.content, row.page_number, row.original_similarity,
              (dedupImages st.seen_images row.images).1, row.tables⟩ := by
          simpa using hc.symm
        rw [hcv]
        exact hsim
    · rw [if_neg hsim]
      by_cases hctx : st.current_context.isSome
      · rw [if_pos hctx]
        exact ⟨h1, fun _ => hctx, h3⟩
      · rw [if_neg hctx]
        exact ⟨h1, h2, h3⟩

lemma asmFoldl_inv (t : ℚ) :
    ∀ (rows : List SRow) (st : AsmState), AsmInv t st →
      AsmInv t (rows.foldl (asmStep t) st) := by
  intro rows
  induction rows with
  | nil => intro st h; exact h
  | cons r rest ih => intro st h; exact ih _ (asmStep_inv t st r h)

lemma asmFinish_inv (t : ℚ) (st : AsmState) (h : AsmInv t st) :
    ∀ g ∈ asmFinish st, groupCtxAbove t g = true := by
  obtain ⟨h1, _, h3⟩ := h
  cases hctx : st.current_context with
  | none => simp only [asmFinish, hctx]; exact h1
  | some ctx =>
    simp only [asmFinish, hctx]
    by_cases hge : st.current_group.isEmpty
    · rw [if_pos hge]; exact h1
    · rw [if_neg hge]
      intro g hg
      rcases List.mem_append.mp hg with hg | hg
      · exact h1 g hg
      · have hgg : g =
            ⟨some ctx, dedupPagesFinal ctx st.current_group.length []
              st.current_group⟩ := by simpa using hg
        rw [hgg]
        unfold groupCtxAbove
        simpa using h3 ctx hctx

/-- C2: for every threshold and every row list, every context group emitted by
the grouping pass has a context row, and that context's similarity is strictly
greater than the caller's threshold. -/
theorem C2_every_group_context_above_threshold :
    ∀ (threshold : ℚ) (rows : List SRow),
      (SearchService.assemble threshold rows).all (groupCtxAbove threshold) =
        true := by
  intro t rows
  rw [List.all_eq_true]
  intro g hg
  refine asmFinish_inv t _ (asmFoldl_inv t rows _ ?_) g hg
  refine ⟨by simp, by simp, by simp⟩

/-! ## Scenario 4 of the spec (claim C1)

The four rows `[sim=0.9 page=1, sim=0.9 page=2 (window), sim=0.5 page=3,
sim=0.85 page=5]` at threshold 0.7.  The rationals are written in lowest-term
constructor form so that the comparisons evaluate inside the kernel; the
lemmas below identify them with the decimal values of the spec. -/

def ratNine10 : ℚ := ⟨9, 10, by decide, by decide⟩

def ratOne2 : ℚ := ⟨1, 2, by decide, by decide⟩

def ratSeventeen20 : ℚ := ⟨17, 20, by decide, by decide⟩

def ratSeven10 : ℚ := ⟨7, 10, by decide, by decide⟩

lemma ratNine10_eq : ratNine10 = 9 / 10 := by
  norm_num [ratNine10, Rat.mk'_eq_divInt, Rat.divInt_eq_div]

lemma ratOne2_eq : ratOne2 = 1 / 2 := by
  norm_num [ratOne2, Rat.mk'_eq_divInt, Rat.divInt_eq_div]

lemma ratSeventeen20_eq : ratSeventeen20 = 17 / 20 := by
  norm_num [ratSeventeen20, Rat.mk'_eq_divInt, Rat.divInt_eq_div]

lemma ratSeven10_eq : ratSeven10 = 7 / 10 := by
  norm_num [ratSeven10, Rat.mk'_eq_divInt, Rat.divInt_eq_div]

/-- Scenario 4's ordered rows as the grouping pass receives them: the page-2
row is a windowed row, so its `original_similarity` is the *inherited* 0.9 of
the page-1 match — its own similarity never reaches the assembler. -/
def scn4rows : List SRow :=
  [⟨1, "match page 1", 1, ratNine10, [], []⟩,
   ⟨2, "window page 2", 2, ratNine10, [], []⟩,
   ⟨3, "low page 3", 3, ratOne2, [], []⟩,
   ⟨4, "match page 5", 5, ratSeventeen20, [], []⟩]

/-- C1 counterexample: on Scenario 4's rows with threshold 0.7 the code
yields three groups, not the claimed two — the windowed page-2 row carries the
inherited similarity 0.9 > 0.7, so it opens its own group — and the final
group's `pages` list is empty, not `[page5]`: the final flush (unlike every
mid-stream flush) skips the context row when it is the group's only element
with the context's content. -/
theorem C1_counterexample :
    ratNine10 = 9 / 10 ∧ ratOne2 = 1 / 2 ∧ ratSeventeen20 = 17 / 20 ∧
    ratSeven10 = 7 / 10 ∧
    (SearchService.assemble ratSeven10 scn4rows).length = 3 ∧
    (SearchService.assemble ratSeven10 scn4rows).map
        (fun g => g.pages.map ResultItem.page_number) = [[1], [2, 3], []] := by
  exact ⟨ratNine10_eq, ratOne2_eq, ratSeventeen20_eq, ratSeven10_eq,
    by decide, by decide⟩

/-- C1 (amended): Scenario 4's rows at threshold 0.7 assemble into exactly
three groups: `{context: page1 (0.9), pages: [page1]}`, `{context: page2
(inherited 0.9), pages: [page2, page3]}` and `{context: page5 (0.85),
pages: []}`.  A row above the threshold always starts a new group even when it
is a windowed row (the assembler only sees the inherited score), and the final
flush omits the context row from `pages` when it is the group's only row and
carries the context's content — so a final group whose only row is its context
lists no pages, unlike every mid-stream group. -/
theorem C1_amended :
    SearchService.assemble ratSeven10 scn4rows =
      [⟨some ⟨"match page 1", 1, ratNine10, [], []⟩,
         [⟨"match page 1", 1, ratNine10, [], []⟩]⟩,
       ⟨some ⟨"window page 2", 2, ratNine10, [], []⟩,
         [⟨"window page 2", 2, ratNine10, [], []⟩,
          ⟨"low page 3", 3, ratOne2, [], []⟩]⟩,
       ⟨some ⟨"match page 5", 5, ratSeventeen20, [], []⟩, []⟩] := by
  decide

/-! ## Image linking during ingestion (claim C8)

Two code paths attach images to chunks:
* `EmbeddingService.process_page_content` (src/app/services/
  embedding_service.py lines 96-156): builds the chunks of a page from its
  text blocks via `chunk_text`, then appends to every chunk a reference to
  *every* image of the page, unconditionally; tables, by contrast, are
  filtered through Policy A proximity against the chunk's bbox.
* `VectorService.vectorize_document` (src/app/services/vector_service.py
  lines 61-74): computes `nearby_images` per text block — but only when
  `isinstance(text_block.get('bbox'), (list, tuple))`; otherwise the list
  stays empty and no image is linked.  When the bbox is a list, the
  comprehension keeps the page images whose `type` field equals `'image'`
  (no proximity test), dropping entries without that field. -/

structure PageImage where
  filename : String
  path : String
deriving DecidableEq

structure PageTable where
  filename : String
  path : String
  bbox : PyBox
deriving DecidableEq

structure TextBlock where
  text : List Char
  bbox : PyBox
deriving DecidableEq

structure PageContent where
  page_number : ℤ
  text : List TextBlock
  images : List PageImage
  tables : List PageTable
deriving DecidableEq

/-- A `chunk_data` dict of `process_page_content` (its `chunk_metadata`
flattened into the fields the code reads or writes). -/
structure ChunkData where
  content : List Char
  document_id : ℤ
  page_number : ℤ
  bbox : PyBox
  images : List ImageRef
  tables : List PageTable
deriving DecidableEq

namespace EmbeddingService

/-- `EmbeddingService.process_page_content`: phase 1 chunks every non-blank
text block (lines 109-128), phase 2 attaches every page image to every chunk
and the Policy-A-nearby tables (lines 131-151). -/
def process_page_content (page : PageContent) (document_id : ℤ) :
    List ChunkData :=
  let base : List ChunkData := page.text.flatMap fun tb =>
    if (pyStrip tb.text).isEmpty then []
    else (chunk_text tb.text).map fun c =>
      { content := c, document_id := document_id,
        page_number := page.page_number, bbox := tb.bbox,
        images := [], tables := [] }
  base.map fun cd =>
    { cd with
      images := page.images.map fun i => ⟨i.filename, i.path⟩,
      tables := page.tables.filter fun tbl => is_nearby cd.bbox tbl.bbox 200 }

end EmbeddingService

namespace VectorService

/-- An entry of a page's `images` list as `vectorize_document` sees it:
`img.get(...)` returns `None` for a missing key. -/
structure VSImage where
  filename : Option String
  path : Option String
  type : Option String
deriving DecidableEq

/-- The `nearby_images` computation of `vectorize_document` (lines 61-69):
empty unless the text block's bbox is a list/tuple; when it is, every page
entry whose `type` is `'image'` — the bbox values themselves are never
compared. -/
def nearbyImages (blockBbox : PyBox) (images : List VSImage) : List VSImage :=
  match blockBbox with
  | PyBox.box _ => images.filter fun img => img.type == some "image"
  | PyBox.notList => []

end VectorService

def c8img : VectorService.VSImage :=
  ⟨some "fig1.png", some "images/fig1.png", some "image"⟩

def c8imgNoType : VectorService.VSImage :=
  ⟨some "fig2.png", some "images/fig2.png", none⟩

/-- C8 counterexample: the claim says every image of a chunk's page is linked
to the chunk regardless of bounding boxes, including when the chunk's text
block has no valid bbox.  In the batch-vectorization path the opposite holds:
with an invalid block bbox no image is linked at all, and even with a valid
bbox an entry without `type == 'image'` is dropped. -/
theorem C8_counterexample :
    VectorService.nearbyImages PyBox.notList [c8img] = [] ∧
    VectorService.nearbyImages
      (PyBox.box [PyVal.num 0, PyVal.num 0, PyVal.num 1, PyVal.num 1])
      [c8imgNoType] = [] := by
  exact ⟨rfl, rfl⟩

/-- C8 (amended): images are never proximity-filtered — no bounding-box
comparison is applied to them on either path — but page-wide linking holds
only in the ingestion path: every chunk produced by `process_page_content`
carries a reference to every image of its page, in order, regardless of any
bbox; in the batch-vectorization path a chunk receives the page's entries
whose `type` field is `'image'` when its block bbox is a list/tuple, and no
images at all otherwise. -/
theorem C8_amended :
    (∀ (page : PageContent) (did : ℤ),
      ∀ cd ∈ EmbeddingService.process_page_content page did,
        cd.images = page.images.map fun i => (⟨i.filename, i.path⟩ : ImageRef)) ∧
    (∀ (blockBbox : PyBox) (imgs : List VectorService.VSImage)
        (img : VectorService.VSImage),
      img ∈ VectorService.nearbyImages blockBbox imgs ↔
        (∃ l, blockBbox = PyBox.box l) ∧ img ∈ imgs ∧
          img.type = some "image") := by
  constructor
  · intro page did cd hcd
    simp only [EmbeddingService.process_page_content, List.mem_map] at hcd
    obtain ⟨cd2, _, rfl⟩ := hcd
    rfl
  · intro blockBbox imgs img
    cases blockBbox with
    | notList => simp [VectorService.nearbyImages]
    | box l => simp [VectorService.nearbyImages, List.mem_filter]

end PdfRag
